import Mathlib

/-!
Verification development for the `go-internist` utility scripts.

The repository contains three directory-tree printers (`tree.py` printing to
the console, `tee.py` rendering collected lines to an image, `zprj_tree.py`
printing with emoji icons) and two translation-API scripts (`ai.py`, `api.py`).

Shallow embedding conventions:
* A Python string is modelled as `List Char` (`Str`); Python compares strings
  lexicographically by code point, which `strLe` below reproduces via
  `Char.toNat`.
* A filesystem is modelled as the inductive `Entry`: a regular file, a
  directory (with a `denied` flag meaning `os.listdir` raises
  `PermissionError` on it), or `other` for an entry that is neither a regular
  file nor a directory (socket, FIFO, broken symlink): `os.path.isdir` and
  `os.path.isfile` both return `False` on such entries, while `os.listdir`
  still reports their names.
* `os.listdir` returns the children in unspecified order; every script sorts
  the listing, so the model keeps the children in arbitrary stored order and
  applies each script's own sort.
* Code that can raise an uncaught exception is modelled in `Except Unit`.
-/

/-- A Python string: list of Unicode scalar values. -/
abbrev Str := List Char

/-- A filesystem entry.  `dir name denied children`: listing the directory
raises `PermissionError` exactly when `denied` is true (`os.path.isdir` on the
directory itself still succeeds, so its parent can list and print it). -/
inductive Entry : Type where
  | file (name : Str)
  | other (name : Str)
  | dir (name : Str) (denied : Bool) (children : List Entry)

/-- Name of an entry, as returned by `os.listdir` of the parent. -/
def Entry.name : Entry → Str
  | .file n => n
  | .other n => n
  | .dir n _ _ => n

/-- Result of `os.path.isdir` on the entry. -/
def Entry.isDirE : Entry → Bool
  | .dir _ _ _ => true
  | _ => false

/-- Result of `os.path.isfile` on the entry. -/
def Entry.isFileE : Entry → Bool
  | .file _ => true
  | _ => false

/-- Children of a directory entry (empty list for files and others). -/
def Entry.childrenE : Entry → List Entry
  | .dir _ _ cs => cs
  | _ => []

/-- Python string comparison `a <= b`: lexicographic by code point. -/
def strLe : Str → Str → Bool
  | [], _ => true
  | _ :: _, [] => false
  | a :: as, b :: bs =>
    if a.toNat < b.toNat then true
    else if a.toNat = b.toNat then strLe as bs
    else false

/-- The branch connector `"├── "` used for every sibling except the last. -/
def branchS : Str := "├── ".toList

/-- The corner connector `"└── "` used for the last sibling. -/
def cornerS : Str := "└── ".toList

/-- The continuation unit `"│   "` used below a non-last directory sibling. -/
def vbarS : Str := "│   ".toList

/-- The blank continuation unit `"    "` used below the last sibling. -/
def spS : Str := "    ".toList

/-!
Shared renderer of `tree.py` and `tee.py`.

Both scripts run the same loop over the filtered, sorted listing:

    for i, entry in enumerate(entries):
        connector = "└── " if i == len(entries) - 1 else "├── "
        emit(prefix + connector + entry)
        if os.path.isdir(full):
            extension = "    " if i == len(entries) - 1 else "│   "
            recurse(full, prefix + extension)

The two scripts differ only in their filter and sort, which the model applies
in a separate normalisation pass (`trNorm`, `teeNorm`) before rendering: the
source lists, filters and sorts the names at each level and then recurses,
the model normalises each child first and then filters and sorts; the two
orders agree because the filters and sort keys only read an entry's name and
kind, which normalisation preserves.  A `PermissionError` raised by
`os.listdir` anywhere in the walk is uncaught in both scripts, so the whole
run is modelled as `Except Unit`.
-/

mutual
/-- Lines emitted for the subtree of one entry: `os.listdir` on a denied
directory raises (the `.error` case); the scripts only ever recurse into
directories, so the file/other cases are unreachable guards (listing a
non-directory would also raise). -/
def render : Entry → Str → Except Unit (List Str)
  | .dir _ true _, _ => .error ()
  | .dir _ false cs, pfx => renderList cs pfx
  | .file _, _ => .error ()
  | .other _, _ => .error ()

/-- Loop body over the (already filtered and sorted) listing: the last entry
gets the corner connector and blank continuation, every other entry the
branch connector and vertical-bar continuation; each entry's own line is
emitted before its subtree's lines. -/
def renderList : List Entry → Str → Except Unit (List Str)
  | [], _ => .ok []
  | [c], pfx =>
    match (if c.isDirE then render c (pfx ++ spS) else .ok []) with
    | .error e => .error e
    | .ok sub => .ok ((pfx ++ cornerS ++ c.name) :: sub)
  | c :: c2 :: rest, pfx =>
    match (if c.isDirE then render c (pfx ++ vbarS) else .ok []) with
    | .error e => .error e
    | .ok sub =>
      match renderList (c2 :: rest) pfx with
      | .error e => .error e
      | .ok tl => .ok ((pfx ++ branchS ++ c.name) :: (sub ++ tl))
end

/-- Stable insertion of `x` into a list sorted by `le`: `x` goes before the
first element it compares `le` to, so among `le`-ties the earlier element
stays first — the stability Python's `list.sort` guarantees. -/
def insertLe (le : Entry → Entry → Bool) (x : Entry) : List Entry → List Entry
  | [] => [x]
  | y :: ys => if le x y then x :: y :: ys else y :: insertLe le x ys

/-- Stable sort by the boolean comparator `le`, modelling Python's stable
`list.sort` / `sorted` (any two stable sorts agree on a total preorder). -/
def sortLe (le : Entry → Entry → Bool) : List Entry → List Entry
  | [] => []
  | x :: xs => insertLe le x (sortLe le xs)

/-- Exclusion filter of `tree.py`: `e not in {"node_modules", ".git"}`. -/
def trKeep (e : Entry) : Bool :=
  !(e.name = "node_modules".toList || e.name = ".git".toList)

/-- Sort of `tree.py`: `entries.sort()`, plain lexicographic order on the
names (Python's stable sort, modelled by the stable `sortLe`). -/
def trSort (l : List Entry) : List Entry :=
  sortLe (fun a b => strLe a.name b.name) l

mutual
/-- Listing pipeline of `tree.py` applied at each level, recursively:
filter out the excluded names, sort lexicographically. -/
def trNorm : Entry → Entry
  | .file n => .file n
  | .other n => .other n
  | .dir n d cs => .dir n d (trSort ((trNormL cs).filter trKeep))

/-- Structural map of `trNorm` over a list of entries. -/
def trNormL : List Entry → List Entry
  | [] => []
  | c :: rest => trNorm c :: trNormL rest
end

/-- Runs `tree.py`'s `tree(path)` on a root entry: lines it would print, or
`.error` when an uncaught `PermissionError` crashes the script. -/
def tree (t : Entry) : Except Unit (List Str) :=
  render (trNorm t) []

/-- ASCII lowering used by `tee.py`'s sort key `e.lower()` (entry names in
this repository are ASCII, where `Char.toLower` agrees with Python). -/
def strLower (s : Str) : Str := s.map Char.toLower

/-- Exclusion filter of `tee.py`'s `build_tree`:
`e not in ('node_modules', '.git') and not e.startswith('.git') and e != 'tee.py'`. -/
def teeKeep (e : Entry) : Bool :=
  !(e.name = "node_modules".toList || e.name = ".git".toList) &&
  !(".git".toList.isPrefixOf e.name) &&
  !(e.name = "tee.py".toList)

/-- Sort key rank of `tee.py`: `not os.path.isdir(...)` — directories rank 0,
everything else 1, so directories come first. -/
def teeRank (e : Entry) : Nat := if e.isDirE then 0 else 1

/-- Sort of `tee.py`: stable sort by the key `(not isdir, e.lower())`. -/
def teeSort (l : List Entry) : List Entry :=
  sortLe (fun a b =>
    decide (teeRank a < teeRank b) ||
    (teeRank a = teeRank b && strLe (strLower a.name) (strLower b.name))) l

mutual
/-- Listing pipeline of `tee.py`'s `build_tree` applied at each level,
recursively: filter, then sort directories-first by lower-cased name. -/
def teeNorm : Entry → Entry
  | .file n => .file n
  | .other n => .other n
  | .dir n d cs => .dir n d (teeSort ((teeNormL cs).filter teeKeep))

/-- Structural map of `teeNorm` over a list of entries. -/
def teeNormL : List Entry → List Entry
  | [] => []
  | c :: rest => teeNorm c :: teeNormL rest
end

/-- Runs `tee.py`'s `build_tree(root)` on a root entry: the returned list of
lines, or `.error` when an uncaught `PermissionError` crashes the script. -/
def build_tree (t : Entry) : Except Unit (List Str) :=
  render (teeNorm t) []

/-- Skip set of `zprj_tree.py`: `SKIP = {'node_modules', '.git', '__pycache__'}`. -/
def zSkip (n : Str) : Bool :=
  n = "node_modules".toList || n = ".git".toList || n = "__pycache__".toList

/-- Sort of `zprj_tree.py`: `sorted(os.listdir(start_path))`, lexicographic
on the names. -/
def zSort (l : List Entry) : List Entry :=
  sortLe (fun a b => strLe a.name b.name) l

/-- Directory filter of `zprj_tree.py`:
`[d for d in entries if os.path.isdir(...) and d not in SKIP]`. -/
def zKeepDir (e : Entry) : Bool := e.isDirE && !(zSkip e.name)

/-- Icon prefixed to directory names by `zprj_tree.py`. -/
def folderTag : Str := "📁 ".toList

/-- Icon prefixed to file names by `zprj_tree.py`. -/
def fileTag : Str := "📄 ".toList

mutual
/-- Listing pipeline of `zprj_tree.py` applied at each level, recursively:
sort all names, keep the non-skipped directories followed by all regular
files (entries that are neither are in neither list and disappear). -/
def zNorm : Entry → Entry
  | .file n => .file n
  | .other n => .other n
  | .dir n d cs =>
    .dir n d ((zSort (zNormL cs)).filter zKeepDir ++
              (zSort (zNormL cs)).filter Entry.isFileE)

/-- Structural map of `zNorm` over a list of entries. -/
def zNormL : List Entry → List Entry
  | [] => []
  | c :: rest => zNorm c :: zNormL rest
end

mutual
/-- Lines printed by `zprj_tree.py`'s `print_tree(path)` below one directory:
the `try/except PermissionError: return` swallows a denied listing, yielding
no lines for that subtree; the function is only ever invoked on directories. -/
def zRender : Entry → Str → List Str
  | .dir _ true _, _ => []
  | .dir _ false cs, pfx => zRenderList cs pfx
  | .file _, _ => []
  | .other _, _ => []

/-- Loop of `print_tree` over `dirs + files`: directories get the folder icon
and a recursive call with the extended continuation, files the file icon. -/
def zRenderList : List Entry → Str → List Str
  | [], _ => []
  | [c], pfx =>
    if c.isDirE then
      (pfx ++ cornerS ++ folderTag ++ c.name) :: zRender c (pfx ++ spS)
    else
      [pfx ++ cornerS ++ fileTag ++ c.name]
  | c :: c2 :: rest, pfx =>
    (if c.isDirE then
      (pfx ++ branchS ++ folderTag ++ c.name) :: zRender c (pfx ++ vbarS)
     else
      [pfx ++ branchS ++ fileTag ++ c.name]) ++ zRenderList (c2 :: rest) pfx
end

/-- Runs `zprj_tree.py`'s `print_tree(start_path)` on a root entry.  The
codomain is a total `List Str`: the script cannot raise out of a directory
walk (its only listing call is wrapped in `try/except PermissionError`). -/
def print_tree (t : Entry) : List Str :=
  zRender (zNorm t) []

/-!
HTTP call sites of the two translation scripts.

Each `requests.post(...)` call in the repository is transcribed as a
`PostCall` record of its URL and its `timeout` keyword argument (`none` when
the call passes no timeout, in which case `requests` waits indefinitely).
All calls are synchronous: `requests.post` blocks until response or timeout.
-/

/-- Configuration of one `requests.post` call site. -/
structure PostCall where
  url : Str
  timeout : Option Nat

/-- The POST in `ai.py`'s `test_avalai_translation`:
`requests.post(f"...", headers=headers, json=payload, timeout=30)`. -/
def translation_post : PostCall :=
  { url := "https://api.avalai.ir/v1/responses".toList, timeout := some 30 }

/-- The POST in `ai.py`'s `test_api_connectivity`: `timeout=10`. -/
def connectivity_post : PostCall :=
  { url := "https://api.avalai.ir/v1/responses".toList, timeout := some 10 }

/-- The POST in `api.py`:
`requests.post(url, json=payload, headers=headers)` — no `timeout` argument. -/
def api_chat_post : PostCall :=
  { url := "https://api.avalai.ir/v1/chat/completions".toList, timeout := none }

/-- Every POST issued by the translation scripts, in source order. -/
def translation_posts : List PostCall :=
  [translation_post, connectivity_post, api_chat_post]

/-- Character class stripped by Python's `str.strip()` with no argument
(ASCII whitespace; the strings involved here are ASCII). -/
def pyIsSpace (c : Char) : Bool :=
  c = ' ' || c = '\t' || c = '\n' || c = '\r' || c = '\x0b' || c = '\x0c'

/-- Python's `str.strip(chars)`: repeatedly remove matching characters from
both ends. -/
def stripEnds (p : Char → Bool) (s : Str) : Str :=
  ((s.dropWhile p).reverse.dropWhile p).reverse

/-- Python's `s.strip()`. -/
def pyStripWs (s : Str) : Str := stripEnds pyIsSpace s

/-- Python's `s.strip('"')`. -/
def pyStripQuotes (s : Str) : Str := stripEnds (fun c => c = '"') s

/-- Decimal rendering of a number interpolated into an f-string. -/
def natStr (n : Nat) : Str := (toString n).toList

/-- An HTTP response as the scripts observe it: status code, the body text
(also standing for `json.dumps` of the parsed body), the `output_text` field
when the parsed body has one, and whether `response.json()` succeeds. -/
structure HttpResponse where
  status : Nat
  raw : Str
  output_text : Option Str
  jsonOk : Bool

/-- Outcome of one `requests.post` call as discriminated by the scripts'
`except` clauses. -/
inductive PostResult where
  | timeout
  | netError (msg : Str)
  | success (r : HttpResponse)

/-- Per-test-case response handling of `ai.py`'s `test_avalai_translation`
(the response-time line, which depends on the wall clock, is elided).  On
status 200 the translation is `result["output_text"].strip().strip('"')`;
a `response.json()` failure is caught by the generic `except` clause. -/
def avalai_handle : PostResult → List Str
  | .timeout => ["⏰ Request timed out (30s)".toList]
  | .netError m => ["🌐 Network error: ".toList ++ m]
  | .success r =>
    ("📥 Status code: ".toList ++ natStr r.status) ::
    (if r.status = 200 then
      if r.jsonOk then
        ("✅ Success!".toList) ::
        ("Raw response: ".toList ++ r.raw) ::
        (match r.output_text with
         | some t =>
           let translation := pyStripQuotes (pyStripWs t)
           ("🔤 Translation: '".toList ++ translation ++ "'".toList) ::
           ("📏 Length: ".toList ++ natStr translation.length ++
             " characters".toList) ::
           (if translation = [] then ["❌ Translation is empty!".toList]
            else ["✅ Translation is not empty".toList])
         | none => ["❌ No 'output_text' field in response".toList])
      else ["💥 Unexpected error: json decode".toList]
    else
      ("❌ Error response:".toList) :: [r.raw])

/-- Body of `ai.py`'s `test_api_connectivity`: the whole `try` block is
wrapped in `except Exception`, so the function always returns normally; on a
response it prints the status line, one verdict line, then the parsed body
(or the caught-exception line when `response.json()` fails). -/
def test_api_connectivity : PostResult → List Str
  | .timeout => ["❌ Connection failed: timeout".toList]
  | .netError m => ["❌ Connection failed: ".toList ++ m]
  | .success r =>
    ("Status: ".toList ++ natStr r.status) ::
    (if r.status = 401 then "❌ API Key is invalid or expired".toList
     else if r.status = 200 then "✅ API Key is valid".toList
     else "⚠️  Unexpected status code: ".toList ++ natStr r.status) ::
    (if r.jsonOk then ["Response: ".toList ++ r.raw]
     else ["❌ Connection failed: json decode".toList])

/-!
Image rendering of `tee.py`'s `tree_to_jpg`: the bitmap geometry and the
draw-call sequence, with the font abstracted to its metrics (`getlength`
modelled at integer precision; `bboxAy` is `font.getbbox("Ay")[3]`).
-/

/-- Font metrics used by `tree_to_jpg`. -/
structure Font where
  getlength : Str → Nat
  bboxAy : Nat

/-- Computed `line_height = font.getbbox("Ay")[3] + 4`. -/
def line_height (f : Font) : Nat := f.bboxAy + 4

/-- Computed `max_width = max(font.getlength(line) for line in lines)`
(the script's line list is never empty, starting with the root name). -/
def max_width (f : Font) (lines : List Str) : Nat :=
  (lines.map f.getlength).foldr max 0

/-- Computed `img_height = line_height * len(lines) + 10`. -/
def img_height (f : Font) (lines : List Str) : Nat :=
  line_height f * lines.length + 10

/-- Computed `img_width = int(max_width) + 20`. -/
def img_width (f : Font) (lines : List Str) : Nat :=
  max_width f lines + 20

/-- Draw loop of `tree_to_jpg`: `y = 5`, then for each line a
`draw.text((10, y), line, ...)` call followed by `y += line_height`.
Each element is one draw call `(x, y, line)`. -/
def draw_loop (f : Font) : List Str → Nat → List (Nat × Nat × Str)
  | [], _ => []
  | l :: rest, y => (10, y, l) :: draw_loop f rest (y + line_height f)

/-- All draw calls issued by `tree_to_jpg` for a given line list. -/
def draw_calls (f : Font) (lines : List Str) : List (Nat × Nat × Str) :=
  draw_loop f lines 5

/-!
Counting, depth, and permission-reachability notions used by the theorems.
`sizeN`/`sizeL` count the lines `render` emits below a normalised entry;
`zsizeN`/`zsizeL` do the same for `zRender`.  The `…Count` families count,
directly on the source filesystem, the entries each script displays (its
notion of "non-excluded entry reachable by recursive descent").
-/

mutual
/-- Line count of `render` below one normalised entry (directories only). -/
def sizeN : Entry → Nat
  | .dir _ _ cs => sizeL cs
  | _ => 0

/-- Line count of `render` over one normalised listing: one line per entry
plus the lines of its subtree. -/
def sizeL : List Entry → Nat
  | [] => 0
  | c :: rest => (1 + sizeN c) + sizeL rest
end

mutual
/-- Line count of `zRender` below one normalised entry: a denied directory
contributes nothing (its listing is swallowed). -/
def zsizeN : Entry → Nat
  | .dir _ true _ => 0
  | .dir _ false cs => zsizeL cs
  | _ => 0

/-- Line count of `zRender` over one normalised listing. -/
def zsizeL : List Entry → Nat
  | [] => 0
  | c :: rest => (1 + zsizeN c) + zsizeL rest
end

mutual
/-- Number of entries `tree.py` displays below a directory: entries whose
name passes `trKeep`, descending into non-excluded directories. -/
def trCount : Entry → Nat
  | .dir _ _ cs => trCountL cs
  | _ => 0

/-- Listing-level count for `trCount`. -/
def trCountL : List Entry → Nat
  | [] => 0
  | c :: rest => (if trKeep c then 1 + trCount c else 0) + trCountL rest
end

mutual
/-- Number of entries `tee.py`'s `build_tree` displays below a directory. -/
def teeCount : Entry → Nat
  | .dir _ _ cs => teeCountL cs
  | _ => 0

/-- Listing-level count for `teeCount`. -/
def teeCountL : List Entry → Nat
  | [] => 0
  | c :: rest => (if teeKeep c then 1 + teeCount c else 0) + teeCountL rest
end

mutual
/-- Number of entries `zprj_tree.py` displays below a directory: non-skipped
directories (with their subtrees) and every regular file — a file whose name
is in the skip set still counts, an entry that is neither directory nor
regular file never does. -/
def zCount : Entry → Nat
  | .dir _ _ cs => zCountL cs
  | _ => 0

/-- Listing-level count for `zCount`. -/
def zCountL : List Entry → Nat
  | [] => 0
  | c :: rest =>
    (if c.isDirE && !(zSkip c.name) then 1 + zCount c
     else if c.isFileE then 1 else 0) + zCountL rest
end

mutual
/-- Modelled from the claim's words (claim C1): the number of filesystem
entries reachable by recursive descent whose names are not in the icon
variant's exclusion set, counting every entry kind alike. -/
def naiveZCount : Entry → Nat
  | .dir _ _ cs => naiveZCountL cs
  | _ => 0

/-- Listing-level count for `naiveZCount`. -/
def naiveZCountL : List Entry → Nat
  | [] => 0
  | c :: rest => (if zSkip c.name then 0 else 1 + naiveZCount c) + naiveZCountL rest
end

mutual
/-- A filesystem with no permission-denied directory anywhere. -/
def cleanFS : Entry → Bool
  | .dir _ d cs => !d && cleanFSL cs
  | _ => true

/-- Listing-level `cleanFS`. -/
def cleanFSL : List Entry → Bool
  | [] => true
  | c :: rest => cleanFS c && cleanFSL rest
end

mutual
/-- Whether rendering a normalised entry hits a denied directory: the entry
itself is a denied directory, or some directory in its listing is. -/
def nDen : Entry → Bool
  | .dir _ true _ => true
  | .dir _ false cs => nDenL cs
  | _ => false

/-- Listing-level `nDen`. -/
def nDenL : List Entry → Bool
  | [] => false
  | c :: rest => (c.isDirE && nDen c) || nDenL rest
end

mutual
/-- Whether a denied directory is reachable from this source entry through
directories the variant's exclusion filter `keep` retains. -/
def dReach (keep : Entry → Bool) : Entry → Bool
  | .dir _ true _ => true
  | .dir _ false cs => dReachL keep cs
  | _ => false

/-- Listing-level `dReach`. -/
def dReachL (keep : Entry → Bool) : List Entry → Bool
  | [] => false
  | c :: rest => (keep c && c.isDirE && dReach keep c) || dReachL keep rest
end

/-- Boolean test that `p` is an initial segment of `l`. -/
def leadsWith (p l : Str) : Bool := p.isPrefixOf l

/-- Indentation parser of the round-trip property: count leading 4-character
units (`"│   "` or `"    "`, recognised by their first character) until a
connector (first character `└` or `├`) is reached. -/
def parseDepth : Str → Nat
  | [] => 0
  | c :: rest =>
    if c = '└' ∨ c = '├' then 0 else 1 + parseDepth (rest.drop 3)
termination_by l => l.length
decreasing_by
  simp only [List.length_cons, List.length_drop]
  omega

/-- A continuation string made of exactly `k` four-character units, each a
vertical-bar unit or a blank unit — the shape of every `prefix` the renderer
passes to a recursive call. -/
inductive IndentUnits : Nat → Str → Prop where
  | nil : IndentUnits 0 []
  | vbar (k : Nat) (p : Str) : IndentUnits k p → IndentUnits (k + 1) (vbarS ++ p)
  | blank (k : Nat) (p : Str) : IndentUnits k p → IndentUnits (k + 1) (spS ++ p)

mutual
/-- Nesting depths of the lines `render` emits below an entry whose children
sit at filesystem depth `d` relative to the traversal root. -/
def depthsE : Entry → Nat → List Nat
  | .dir _ _ cs, d => depthsL cs d
  | _, _ => []

/-- Listing-level `depthsE`: each entry contributes its own depth `d`
followed by the depths of its subtree's lines. -/
def depthsL : List Entry → Nat → List Nat
  | [], _ => []
  | c :: rest, d => (d :: depthsE c (d + 1)) ++ depthsL rest d
end

/-- Every member of a `Nat` list is bounded by its `foldr max 0`. -/
lemma le_foldr_max (l : List Nat) (x : Nat) (hx : x ∈ l) : x ≤ l.foldr max 0 := by
  induction l with
  | nil => cases hx
  | cons a t ih =>
    rcases List.mem_cons.mp hx with h | h
    · subst h; exact le_max_left _ _
    · exact le_trans (ih h) (le_max_right _ _)

/-- Each draw call is at x-coordinate 10 and fits one line height below the
running start `y`. -/
lemma draw_loop_mem (f : Font) : ∀ (ls : List Str) (y : Nat) (q : Nat × Nat × Str),
    q ∈ draw_loop f ls y →
    q.1 = 10 ∧ q.2.1 + line_height f ≤ y + line_height f * ls.length := by
  intro ls
  induction ls with
  | nil => intro y q hq; simp [draw_loop] at hq
  | cons l rest ih =>
    intro y q hq
    simp only [draw_loop, List.mem_cons] at hq
    rcases hq with rfl | hq
    · refine ⟨rfl, ?_⟩
      simp only [List.length_cons, Nat.mul_succ]
      omega
    · have h := ih (y + line_height f) q hq
      refine ⟨h.1, ?_⟩
      have h2 := h.2
      simp only [List.length_cons, Nat.mul_succ]
      omega

/-- The y-coordinates of the draw calls form the arithmetic sequence starting
at the initial `y` with step `line_height`. -/
lemma draw_loop_ys (f : Font) : ∀ (ls : List Str) (y : Nat),
    (draw_loop f ls y).map (fun q => q.2.1) =
      (List.range ls.length).map (fun i => y + i * line_height f) := by
  intro ls
  induction ls with
  | nil => intro y; simp [draw_loop]
  | cons l rest ih =>
    intro y
    simp only [draw_loop, List.map_cons, List.length_cons]
    rw [List.range_succ_eq_map]
    simp only [List.map_cons, List.map_map]
    refine congrArg₂ List.cons (by simp) ?_
    rw [ih (y + line_height f)]
    refine List.map_congr_left ?_
    intro i _
    simp only [Function.comp_apply, Nat.succ_mul, Nat.add_mul, Nat.one_mul]
    omega

/-- C9: for every non-empty line list and any font, `tree_to_jpg`'s bitmap is
large enough: the width holds the widest line plus the left margin of 10, the
height holds `line_height` times the line count, every draw call is
left-aligned at x = 10 and fits vertically, and the y-coordinates advance by
exactly one `line_height` per line starting at 5. -/
theorem tree_to_jpg_fits (f : Font) (lines : List Str) (_hne : lines ≠ []) :
    (∀ l ∈ lines, 10 + f.getlength l ≤ img_width f lines) ∧
    line_height f * lines.length ≤ img_height f lines ∧
    (∀ q ∈ draw_calls f lines, q.1 = 10 ∧ q.2.1 + line_height f ≤ img_height f lines) ∧
    (draw_calls f lines).map (fun q => q.2.1) =
      (List.range lines.length).map (fun i => 5 + i * line_height f) := by
  refine ⟨?_, ?_, ?_, draw_loop_ys f lines 5⟩
  · intro l hl
    have h : f.getlength l ≤ max_width f lines :=
      le_foldr_max _ _ (List.mem_map_of_mem _ hl)
    simp only [img_width]
    omega
  · simp only [img_height]; omega
  · intro q hq
    have h := draw_loop_mem f lines 5 q hq
    refine ⟨h.1, ?_⟩
    have h2 := h.2
    simp only [img_height]
    omega

/-- Concrete instance of `tree_to_jpg_fits` at a one-line list and a simple
monospace metric. -/
theorem tree_to_jpg_fits_witness :
    (["ab".toList] : List Str) ≠ [] ∧
    ((∀ l ∈ (["ab".toList] : List Str),
        10 + (Font.mk List.length 10).getlength l ≤
          img_width (Font.mk List.length 10) ["ab".toList]) ∧
      line_height (Font.mk List.length 10) * (["ab".toList] : List Str).length ≤
        img_height (Font.mk List.length 10) ["ab".toList] ∧
      (∀ q ∈ draw_calls (Font.mk List.length 10) ["ab".toList],
        q.1 = 10 ∧ q.2.1 + line_height (Font.mk List.length 10) ≤
          img_height (Font.mk List.length 10) ["ab".toList]) ∧
      (draw_calls (Font.mk List.length 10) ["ab".toList]).map (fun q => q.2.1) =
        (List.range (["ab".toList] : List Str).length).map
          (fun i => 5 + i * line_height (Font.mk List.length 10))) :=
  ⟨by simp, tree_to_jpg_fits (Font.mk List.length 10) ["ab".toList] (by simp)⟩

/-- C5 counterexample: the POST of `api.py` is one of the translation
scripts' POSTs and carries no timeout, so "every HTTP POST … is made with a
timeout" fails on the code. -/
theorem post_timeout_counterexample :
    api_chat_post ∈ translation_posts ∧ api_chat_post.timeout = none :=
  ⟨by simp [translation_posts], rfl⟩

/-- C5 amended: the two POSTs of the test script `ai.py` carry timeouts of
30 and 10 seconds; the one-shot chat script `api.py` issues its POST without
a timeout, so that call can block indefinitely. -/
theorem post_timeouts :
    translation_post.timeout = some 30 ∧
    connectivity_post.timeout = some 10 ∧
    api_chat_post.timeout = none :=
  ⟨rfl, rfl, rfl⟩

/-- C7: on a 200 response whose body's `output_text` field is `"hello"`
surrounded by literal quote characters, `test_avalai_translation` prints the
translation with the surrounding whitespace and quotes stripped: `hello`. -/
theorem avalai_translation_strips_quotes :
    avalai_handle (.success (HttpResponse.mk 200 "body".toList
        (some "\"hello\"".toList) true)) =
      [ "📥 Status code: 200".toList,
        "✅ Success!".toList,
        "Raw response: body".toList,
        "🔤 Translation: 'hello'".toList,
        "📏 Length: 5 characters".toList,
        "✅ Translation is not empty".toList ] := by
  rfl

/-- C8: on any 401 response — whatever the body, whether or not it parses as
JSON — `test_api_connectivity` prints the line `❌ API Key is invalid or
expired`; the function's total codomain `List Str` reflects that its body is
wrapped in `except Exception`, so it always returns normally. -/
theorem connectivity_401_reports (raw : Str) (ot : Option Str) (j : Bool) :
    "❌ API Key is invalid or expired".toList ∈
      test_api_connectivity (.success (HttpResponse.mk 401 raw ot j)) := by
  simp [test_api_connectivity]

mutual
/-- Successful rendering of one entry emits `sizeN` lines. -/
lemma render_length : ∀ (t : Entry) (pfx : Str) (out : List Str),
    render t pfx = .ok out → out.length = sizeN t
  | .dir n true cs, pfx, out => by intro h; simp [render] at h
  | .dir n false cs, pfx, out => by
    intro h
    rw [render] at h
    simpa [sizeN] using renderList_length cs pfx out h
  | .file n, pfx, out => by intro h; simp [render] at h
  | .other n, pfx, out => by intro h; simp [render] at h

/-- Successful rendering of one listing emits `sizeL` lines. -/
lemma renderList_length : ∀ (cs : List Entry) (pfx : Str) (out : List Str),
    renderList cs pfx = .ok out → out.length = sizeL cs
  | [], pfx, out => by
    intro h
    simp only [renderList] at h
    cases h
    rfl
  | [c], pfx, out => by
    intro h
    rw [renderList] at h
    rcases hd : c.isDirE with _ | _
    · rw [hd] at h
      simp only [Bool.false_eq_true, if_false] at h
      cases h
      have hz : sizeN c = 0 := by cases c <;> simp_all [Entry.isDirE, sizeN]
      simp [sizeL, hz]
    · rw [hd] at h
      simp only [if_true] at h
      cases hr : render c (pfx ++ spS) with
      | error e => rw [hr] at h; cases h
      | ok sub =>
        rw [hr] at h
        cases h
        have hs := render_length c (pfx ++ spS) sub hr
        simp [sizeL, hs]
        omega
  | c :: c2 :: rest, pfx, out => by
    intro h
    rw [renderList] at h
    rcases hd : c.isDirE with _ | _
    · rw [hd] at h
      simp only [Bool.false_eq_true, if_false] at h
      cases hr2 : renderList (c2 :: rest) pfx with
      | error e => rw [hr2] at h; cases h
      | ok tl =>
        rw [hr2] at h
        cases h
        have ht := renderList_length (c2 :: rest) pfx tl hr2
        have hz : sizeN c = 0 := by cases c <;> simp_all [Entry.isDirE, sizeN]
        simp [sizeL, ht, hz]
        omega
    · rw [hd] at h
      simp only [if_true] at h
      cases hr : render c (pfx ++ vbarS) with
      | error e => rw [hr] at h; cases h
      | ok sub =>
        rw [hr] at h
        cases hr2 : renderList (c2 :: rest) pfx with
        | error e => rw [hr2] at h; cases h
        | ok tl =>
          rw [hr2] at h
          cases h
          have hs := render_length c (pfx ++ vbarS) sub hr
          have ht := renderList_length (c2 :: rest) pfx tl hr2
          simp [sizeL, hs, ht]
          omega
end

/-- Listing line count as a sum over the entries. -/
lemma sizeL_eq_sum : ∀ cs : List Entry, sizeL cs = (cs.map (fun c => 1 + sizeN c)).sum
  | [] => rfl
  | c :: rest => by simp [sizeL, sizeL_eq_sum rest]

/-- Permuting a listing does not change its rendered line count. -/
lemma sizeL_perm {l₁ l₂ : List Entry} (h : l₁.Perm l₂) : sizeL l₁ = sizeL l₂ := by
  rw [sizeL_eq_sum, sizeL_eq_sum]
  exact (h.map _).sum_eq

/-- Inserting with `insertLe` is a permutation of consing. -/
lemma insertLe_perm (le : Entry → Entry → Bool) (x : Entry) :
    ∀ l : List Entry, (insertLe le x l).Perm (x :: l)
  | [] => List.Perm.refl _
  | y :: ys => by
    rw [insertLe]
    rcases h : le x y with _ | _
    · simp only [Bool.false_eq_true, if_false]
      exact ((insertLe_perm le x ys).cons y).trans (List.Perm.swap x y ys)
    · simp only [if_true]
      exact List.Perm.refl _

/-- `sortLe` permutes its input. -/
lemma sortLe_perm (le : Entry → Entry → Bool) :
    ∀ l : List Entry, (sortLe le l).Perm l
  | [] => List.Perm.refl _
  | x :: xs => by
    rw [sortLe]
    exact (insertLe_perm le x (sortLe le xs)).trans ((sortLe_perm le xs).cons x)

/-- Membership in an `insertLe` result. -/
lemma mem_insertLe {le : Entry → Entry → Bool} {x z : Entry} {l : List Entry} :
    z ∈ insertLe le x l ↔ z = x ∨ z ∈ l := by
  rw [(insertLe_perm le x l).mem_iff, List.mem_cons]

/-- Inserting into a `le`-sorted list keeps it sorted, for a transitive and
total comparator. -/
lemma insertLe_sorted {le : Entry → Entry → Bool}
    (htrans : ∀ a b c, le a b = true → le b c = true → le a c = true)
    (htot : ∀ a b, (le a b || le b a) = true) (x : Entry) :
    ∀ l : List Entry, l.Pairwise (fun a b => le a b = true) →
      (insertLe le x l).Pairwise (fun a b => le a b = true)
  | [], _ => List.pairwise_singleton _ _
  | y :: ys, h => by
    rw [List.pairwise_cons] at h
    rw [insertLe]
    rcases hxy : le x y with _ | _
    · have hyx : le y x = true := by
        have := htot x y
        rw [hxy] at this
        simpa using this
      simp only [Bool.false_eq_true, if_false]
      rw [List.pairwise_cons]
      refine ⟨?_, insertLe_sorted htrans htot x ys h.2⟩
      intro z hz
      rcases mem_insertLe.mp hz with rfl | hz
      · exact hyx
      · exact h.1 z hz
    · simp only [if_true]
      rw [List.pairwise_cons]
      refine ⟨?_, List.pairwise_cons.mpr h⟩
      intro z hz
      rcases List.mem_cons.mp hz with rfl | hz
      · exact hxy
      · exact htrans x y z hxy (h.1 z hz)

/-- `sortLe` sorts, for a transitive and total comparator. -/
lemma sortLe_sorted {le : Entry → Entry → Bool}
    (htrans : ∀ a b c, le a b = true → le b c = true → le a c = true)
    (htot : ∀ a b, (le a b || le b a) = true) :
    ∀ l : List Entry, (sortLe le l).Pairwise (fun a b => le a b = true)
  | [] => List.Pairwise.nil
  | x :: xs => by
    rw [sortLe]
    exact insertLe_sorted htrans htot x (sortLe le xs) (sortLe_sorted htrans htot xs)

/-- The names a normalisation pass leaves unchanged. -/
lemma trNorm_name (t : Entry) : (trNorm t).name = t.name := by
  cases t <;> simp [trNorm, Entry.name]

/-- The kind a normalisation pass leaves unchanged. -/
lemma trNorm_isDir (t : Entry) : (trNorm t).isDirE = t.isDirE := by
  cases t <;> simp [trNorm, Entry.isDirE]

/-- The exclusion test of `tree.py` only reads the name, which `trNorm`
preserves. -/
lemma trKeep_trNorm (t : Entry) : trKeep (trNorm t) = trKeep t := by
  simp [trKeep, trNorm_name]

/-- The name is unchanged by `tee.py`'s normalisation. -/
lemma teeNorm_name (t : Entry) : (teeNorm t).name = t.name := by
  cases t <;> simp [teeNorm, Entry.name]

/-- The kind is unchanged by `tee.py`'s normalisation. -/
lemma teeNorm_isDir (t : Entry) : (teeNorm t).isDirE = t.isDirE := by
  cases t <;> simp [teeNorm, Entry.isDirE]

/-- The exclusion test of `tee.py` only reads the name. -/
lemma teeKeep_teeNorm (t : Entry) : teeKeep (teeNorm t) = teeKeep t := by
  simp [teeKeep, teeNorm_name]

/-- The name is unchanged by `zprj_tree.py`'s normalisation. -/
lemma zNorm_name (t : Entry) : (zNorm t).name = t.name := by
  cases t <;> simp [zNorm, Entry.name]

/-- The kind is unchanged by `zprj_tree.py`'s normalisation. -/
lemma zNorm_isDir (t : Entry) : (zNorm t).isDirE = t.isDirE := by
  cases t <;> simp [zNorm, Entry.isDirE]

/-- Regular-file-ness is unchanged by `zprj_tree.py`'s normalisation. -/
lemma zNorm_isFile (t : Entry) : (zNorm t).isFileE = t.isFileE := by
  cases t <;> simp [zNorm, Entry.isFileE]

/-- The structural map `trNormL` is `List.map trNorm`. -/
lemma trNormL_eq_map : ∀ cs : List Entry, trNormL cs = cs.map trNorm
  | [] => rfl
  | c :: rest => by simp [trNormL, trNormL_eq_map rest]

/-- The structural map `teeNormL` is `List.map teeNorm`. -/
lemma teeNormL_eq_map : ∀ cs : List Entry, teeNormL cs = cs.map teeNorm
  | [] => rfl
  | c :: rest => by simp [teeNormL, teeNormL_eq_map rest]

/-- The structural map `zNormL` is `List.map zNorm`. -/
lemma zNormL_eq_map : ∀ cs : List Entry, zNormL cs = cs.map zNorm
  | [] => rfl
  | c :: rest => by simp [zNormL, zNormL_eq_map rest]

mutual
/-- The rendered line count of `tree.py`'s normalised tree is its displayed
entry count. -/
lemma sizeN_trNorm : ∀ t : Entry, sizeN (trNorm t) = trCount t
  | .file n => rfl
  | .other n => rfl
  | .dir n d cs => by
    rw [trNorm, trCount]
    show sizeL (trSort ((trNormL cs).filter trKeep)) = trCountL cs
    rw [trSort, sizeL_perm (sortLe_perm _ _)]
    exact sizeL_trFiltered cs

/-- Listing-level transport for `sizeN_trNorm`. -/
lemma sizeL_trFiltered : ∀ cs : List Entry,
    sizeL ((trNormL cs).filter trKeep) = trCountL cs
  | [] => rfl
  | c :: rest => by
    rw [trNormL, List.filter_cons, trCountL]
    rcases hk : trKeep c with _ | _
    · simp only [trKeep_trNorm, hk, Bool.false_eq_true, if_false]
      rw [sizeL_trFiltered rest]
      omega
    · simp only [trKeep_trNorm, hk, if_true]
      rw [sizeL, sizeN_trNorm c, sizeL_trFiltered rest]
end

mutual
/-- The rendered line count of `tee.py`'s normalised tree is its displayed
entry count. -/
lemma sizeN_teeNorm : ∀ t : Entry, sizeN (teeNorm t) = teeCount t
  | .file n => rfl
  | .other n => rfl
  | .dir n d cs => by
    rw [teeNorm, teeCount]
    show sizeL (teeSort ((teeNormL cs).filter teeKeep)) = teeCountL cs
    rw [teeSort, sizeL_perm (sortLe_perm _ _)]
    exact sizeL_teeFiltered cs

/-- Listing-level transport for `sizeN_teeNorm`. -/
lemma sizeL_teeFiltered : ∀ cs : List Entry,
    sizeL ((teeNormL cs).filter teeKeep) = teeCountL cs
  | [] => rfl
  | c :: rest => by
    rw [teeNormL, List.filter_cons, teeCountL]
    rcases hk : teeKeep c with _ | _
    · simp only [teeKeep_teeNorm, hk, Bool.false_eq_true, if_false]
      rw [sizeL_teeFiltered rest]
      omega
    · simp only [teeKeep_teeNorm, hk, if_true]
      rw [sizeL, sizeN_teeNorm c, sizeL_teeFiltered rest]
end

mutual
/-- `zRender` emits `zsizeN` lines below one normalised entry. -/
lemma zRender_length : ∀ (t : Entry) (pfx : Str), (zRender t pfx).length = zsizeN t
  | .dir n true cs, pfx => by simp [zRender, zsizeN]
  | .dir n false cs, pfx => by
    rw [zRender, zsizeN]
    exact zRenderList_length cs pfx
  | .file n, pfx => by simp [zRender, zsizeN]
  | .other n, pfx => by simp [zRender, zsizeN]

/-- `zRender` emits `zsizeL` lines over one normalised listing. -/
lemma zRenderList_length : ∀ (cs : List Entry) (pfx : Str),
    (zRenderList cs pfx).length = zsizeL cs
  | [], pfx => rfl
  | [c], pfx => by
    rw [zRenderList]
    rcases hd : c.isDirE with _ | _
    · have hz : zsizeN c = 0 := by cases c <;> simp_all [Entry.isDirE, zsizeN]
      simp [zsizeL, hz]
    · simp only [if_true]
      rw [List.length_cons, zRender_length c (pfx ++ spS)]
      simp [zsizeL]
      omega
  | c :: c2 :: rest, pfx => by
    rw [zRenderList, List.length_append, zRenderList_length (c2 :: rest) pfx]
    rcases hd : c.isDirE with _ | _
    · have hz : zsizeN c = 0 := by cases c <;> simp_all [Entry.isDirE, zsizeN]
      simp [zsizeL, hz]
    · simp only [if_true]
      rw [List.length_cons, zRender_length c (pfx ++ vbarS)]
      simp [zsizeL]
      omega
end

/-- Icon-variant line count as a sum over the entries. -/
lemma zsizeL_eq_sum : ∀ cs : List Entry, zsizeL cs = (cs.map (fun c => 1 + zsizeN c)).sum
  | [] => rfl
  | c :: rest => by simp [zsizeL, zsizeL_eq_sum rest]

/-- Permuting a listing does not change `zsizeL`. -/
lemma zsizeL_perm {l₁ l₂ : List Entry} (h : l₁.Perm l₂) : zsizeL l₁ = zsizeL l₂ := by
  rw [zsizeL_eq_sum, zsizeL_eq_sum]
  exact (h.map _).sum_eq

/-- `zsizeL` splits over list append. -/
lemma zsizeL_append : ∀ a b : List Entry, zsizeL (a ++ b) = zsizeL a + zsizeL b
  | [], b => by simp [zsizeL]
  | c :: rest, b => by
    rw [List.cons_append, zsizeL, zsizeL, zsizeL_append rest b]
    omega

mutual
/-- On a filesystem with no denied directory, the icon variant's rendered
line count of the normalised tree is its displayed entry count `zCount`. -/
lemma zsizeN_zNorm : ∀ t : Entry, cleanFS t = true → zsizeN (zNorm t) = zCount t
  | .file n => fun _ => rfl
  | .other n => fun _ => rfl
  | .dir n d cs => by
    intro hc
    rw [cleanFS] at hc
    have hd : d = false := by
      rcases d with _ | _
      · rfl
      · simp at hc
    have hcl : cleanFSL cs = true := by
      rcases d with _ | _
      · simpa using hc
      · simp at hc
    subst hd
    rw [zNorm, zsizeN, zCount, zsizeL_append]
    simp only [zSort]
    rw [zsizeL_perm ((sortLe_perm _ (zNormL cs)).filter zKeepDir),
      zsizeL_perm ((sortLe_perm _ (zNormL cs)).filter Entry.isFileE)]
    exact zCount_split cs hcl

/-- Listing-level transport for `zsizeN_zNorm`: the two filtered passes
together account for every counted entry. -/
lemma zCount_split : ∀ cs : List Entry, cleanFSL cs = true →
    zsizeL ((zNormL cs).filter zKeepDir) +
      zsizeL ((zNormL cs).filter Entry.isFileE) = zCountL cs
  | [] => fun _ => rfl
  | c :: rest => by
    intro hc
    rw [cleanFSL] at hc
    have hc1 : cleanFS c = true := by
      rcases h : cleanFS c with _ | _
      · rw [h] at hc; simp at hc
      · rfl
    have hc2 : cleanFSL rest = true := by
      rcases h : cleanFSL rest with _ | _
      · rw [h] at hc; simp at hc
      · rfl
    rw [zNormL, List.filter_cons, List.filter_cons, zCountL]
    rcases c with nm | nm | ⟨nm, dd, ds⟩
    · simp only [zNorm, zKeepDir, Entry.isDirE, Entry.isFileE, Entry.name,
        Bool.false_and, Bool.false_eq_true, if_false, if_true]
      rw [zsizeL]
      have hz : zsizeN (Entry.file nm) = 0 := rfl
      have := zCount_split rest hc2
      omega
    · simp only [zNorm, zKeepDir, Entry.isDirE, Entry.isFileE, Entry.name,
        Bool.false_and, Bool.false_eq_true, if_false]
      have := zCount_split rest hc2
      omega
    · have hdd : dd = false := by
        rw [cleanFS] at hc1
        rcases dd with _ | _
        · rfl
        · simp at hc1
      subst hdd
      simp only [zNorm, zKeepDir, Entry.isDirE, Entry.isFileE, Entry.name,
        Bool.true_and, Bool.false_eq_true, if_false]
      rcases hs : zSkip nm with _ | _
      · simp only [Bool.not_false, if_true]
        rw [zsizeL]
        have he := zsizeN_zNorm (.dir nm false ds) hc1
        have := zCount_split rest hc2
        simp only [zNorm] at he
        omega
      · simp only [Bool.not_true, Bool.false_eq_true, if_false]
        have := zCount_split rest hc2
        omega
end

/-- C1 counterexample: a directory holding one socket (an entry that is
neither a directory nor a regular file, with a name outside the skip set) is
one non-excluded entry reachable by recursive descent, yet the icon variant
emits no line at all, so "line count = number of non-excluded entries" fails
as stated. -/
theorem line_count_counterexample :
    print_tree (.dir "go_internist".toList false [.other "app.sock".toList]) = [] ∧
    naiveZCount (.dir "go_internist".toList false [.other "app.sock".toList]) = 1 :=
  ⟨rfl, rfl⟩

/-- C1 amended: on every run that completes, the console and image
traversals emit exactly one line per entry their own exclusion filter keeps
(`trCount`, `teeCount`); the icon variant emits exactly one line per
non-skipped directory and per regular file (`zCount`), omitting entries of
any other kind. -/
theorem line_count_eq_entry_count :
    (∀ (t : Entry) (out : List Str), tree t = .ok out → out.length = trCount t) ∧
    (∀ (t : Entry) (out : List Str), build_tree t = .ok out → out.length = teeCount t) ∧
    (∀ t : Entry, cleanFS t = true → (print_tree t).length = zCount t) := by
  refine ⟨?_, ?_, ?_⟩
  · intro t out h
    simp only [tree] at h
    exact (render_length (trNorm t) [] out h).trans (sizeN_trNorm t)
  · intro t out h
    simp only [build_tree] at h
    exact (render_length (teeNorm t) [] out h).trans (sizeN_teeNorm t)
  · intro t h
    rw [print_tree, zRender_length]
    exact zsizeN_zNorm t h

/-- Concrete instance of `line_count_eq_entry_count` on a two-level fixture:
all three variants emit as many lines as their displayed entry count. -/
theorem line_count_eq_entry_count_witness :
    (tree (.dir "r".toList false
        [.file "a".toList, .dir "b".toList false [.file "c".toList]]) =
      .ok ["├── a".toList, "└── b".toList, "    └── c".toList] ∧
     (["├── a".toList, "└── b".toList, "    └── c".toList] : List Str).length =
      trCount (.dir "r".toList false
        [.file "a".toList, .dir "b".toList false [.file "c".toList]])) ∧
    (build_tree (.dir "r".toList false
        [.file "a".toList, .dir "b".toList false [.file "c".toList]]) =
      .ok ["├── b".toList, "│   └── c".toList, "└── a".toList] ∧
     (["├── b".toList, "│   └── c".toList, "└── a".toList] : List Str).length =
      teeCount (.dir "r".toList false
        [.file "a".toList, .dir "b".toList false [.file "c".toList]])) ∧
    (cleanFS (.dir "r".toList false
        [.file "a".toList, .dir "b".toList false [.file "c".toList]]) = true ∧
     (print_tree (.dir "r".toList false
        [.file "a".toList, .dir "b".toList false [.file "c".toList]])).length =
      zCount (.dir "r".toList false
        [.file "a".toList, .dir "b".toList false [.file "c".toList]])) :=
  ⟨⟨rfl, line_count_eq_entry_count.1 _ _ rfl⟩,
   ⟨rfl, line_count_eq_entry_count.2.1 _ _ rfl⟩,
   ⟨rfl, line_count_eq_entry_count.2.2 _ rfl⟩⟩

/-- C10: in the icon variant the skip set only filters directory entries —
a regular file named `node_modules` is still printed — and an entry that is
neither a directory nor a regular file produces no output line; in general
the emitted line count is `zCount`, which counts every regular file
(whatever its name) and no entry of other kind. -/
theorem icon_skip_only_dirs :
    print_tree (.dir "r".toList false
        [.other "weird".toList, .file "node_modules".toList]) =
      ["└── 📄 node_modules".toList] ∧
    (∀ t : Entry, cleanFS t = true → (print_tree t).length = zCount t) :=
  ⟨rfl, fun t h => by
    rw [print_tree, zRender_length]
    exact zsizeN_zNorm t h⟩

/-- Concrete instance of the general part of `icon_skip_only_dirs`. -/
theorem icon_skip_only_dirs_witness :
    cleanFS (.dir "r".toList false
        [.other "weird".toList, .file "node_modules".toList]) = true ∧
    (print_tree (.dir "r".toList false
        [.other "weird".toList, .file "node_modules".toList])).length =
      zCount (.dir "r".toList false
        [.other "weird".toList, .file "node_modules".toList]) :=
  ⟨rfl, icon_skip_only_dirs.2 _ rfl⟩

/-- Unfolding of `leadsWith` to list-prefix. -/
lemma leadsWith_iff {p l : Str} : leadsWith p l = true ↔ p <+: l :=
  List.isPrefixOf_iff_prefix

/-- A string leads with any of its initial segments. -/
lemma leadsWith_app (p t : Str) : leadsWith p (p ++ t) = true :=
  leadsWith_iff.mpr ⟨t, rfl⟩

/-- Decomposition of the corner connector. -/
lemma cornerS_cons : cornerS = '└' :: "── ".toList := rfl

/-- Decomposition of the branch connector. -/
lemma branchS_cons : branchS = '├' :: "── ".toList := rfl

/-- Decomposition of the vertical-bar continuation unit. -/
lemma vbarS_cons : vbarS = '│' :: "   ".toList := rfl

/-- Decomposition of the blank continuation unit. -/
lemma spS_cons : spS = ' ' :: "   ".toList := rfl

/-- After a common prefix, a string cannot lead with a block whose first
character differs from what actually follows the prefix. -/
lemma lead_false_of_head_ne (pfx r a b : Str) (a0 b0 : Char) (hne : a0 ≠ b0) :
    leadsWith (pfx ++ (a0 :: a)) (pfx ++ ((b0 :: b) ++ r)) = false := by
  rcases h : leadsWith (pfx ++ (a0 :: a)) (pfx ++ ((b0 :: b) ++ r)) with _ | _
  · rfl
  · exfalso
    have hp := leadsWith_iff.mp h
    have h2 := (List.prefix_append_right_inj pfx).mp hp
    rcases h2 with ⟨t2, ht2⟩
    rw [List.cons_append, List.cons_append] at ht2
    injection ht2 with h1 _
    exact hne h1

mutual
/-- Every line a successful `render` emits carries the call's continuation
string as an initial segment. -/
lemma render_pfx : ∀ (t : Entry) (pfx : Str) (out : List Str),
    render t pfx = .ok out → ∀ l ∈ out, ∃ r, l = pfx ++ r
  | .dir n true cs, pfx, out => by intro h; simp [render] at h
  | .dir n false cs, pfx, out => by
    intro h
    rw [render] at h
    exact renderList_pfx cs pfx out h
  | .file n, pfx, out => by intro h; simp [render] at h
  | .other n, pfx, out => by intro h; simp [render] at h

/-- Listing-level `render_pfx`. -/
lemma renderList_pfx : ∀ (cs : List Entry) (pfx : Str) (out : List Str),
    renderList cs pfx = .ok out → ∀ l ∈ out, ∃ r, l = pfx ++ r
  | [], pfx, out => by
    intro h
    simp only [renderList] at h
    cases h
    intro l hl
    cases hl
  | [c], pfx, out => by
    intro h
    rw [renderList] at h
    rcases hd : c.isDirE with _ | _
    · rw [hd] at h
      simp only [Bool.false_eq_true, if_false] at h
      cases h
      intro l hl
      rcases List.mem_cons.mp hl with rfl | hl
      · exact ⟨cornerS ++ c.name, List.append_assoc pfx cornerS c.name⟩
      · cases hl
    · rw [hd] at h
      simp only [if_true] at h
      cases hr : render c (pfx ++ spS) with
      | error e => rw [hr] at h; cases h
      | ok sub =>
        rw [hr] at h
        cases h
        intro l hl
        rcases List.mem_cons.mp hl with rfl | hl
        · exact ⟨cornerS ++ c.name, List.append_assoc pfx cornerS c.name⟩
        · rcases render_pfx c (pfx ++ spS) sub hr l hl with ⟨r, rfl⟩
          exact ⟨spS ++ r, by rw [List.append_assoc]⟩
  | c :: c2 :: rest, pfx, out => by
    intro h
    rw [renderList] at h
    rcases hd : c.isDirE with _ | _
    · rw [hd] at h
      simp only [Bool.false_eq_true, if_false] at h
      cases hr2 : renderList (c2 :: rest) pfx with
      | error e => rw [hr2] at h; cases h
      | ok tl =>
        rw [hr2] at h
        cases h
        intro l hl
        rcases List.mem_cons.mp hl with rfl | hl
        · exact ⟨branchS ++ c.name, List.append_assoc pfx branchS c.name⟩
        · simp only [List.nil_append] at hl
          exact renderList_pfx (c2 :: rest) pfx tl hr2 l hl
    · rw [hd] at h
      simp only [if_true] at h
      cases hr : render c (pfx ++ vbarS) with
      | error e => rw [hr] at h; cases h
      | ok sub =>
        rw [hr] at h
        cases hr2 : renderList (c2 :: rest) pfx with
        | error e => rw [hr2] at h; cases h
        | ok tl =>
          rw [hr2] at h
          cases h
          intro l hl
          rcases List.mem_cons.mp hl with rfl | hl
          · exact ⟨branchS ++ c.name, List.append_assoc pfx branchS c.name⟩
          · rcases List.mem_append.mp hl with hl | hl
            · rcases render_pfx c (pfx ++ vbarS) sub hr l hl with ⟨r, rfl⟩
              exact ⟨vbarS ++ r, by rw [List.append_assoc]⟩
            · exact renderList_pfx (c2 :: rest) pfx tl hr2 l hl
end

/-- A corner connector cannot appear where a branch line actually is. -/
lemma lead_corner_branch_false (pfx nm : Str) :
    leadsWith (pfx ++ cornerS) ((pfx ++ branchS) ++ nm) = false := by
  rw [List.append_assoc, cornerS_cons, branchS_cons]
  exact lead_false_of_head_ne pfx nm _ _ '└' '├' (by decide)

/-- A branch connector cannot appear where a corner line actually is. -/
lemma lead_branch_corner_false (pfx nm : Str) :
    leadsWith (pfx ++ branchS) ((pfx ++ cornerS) ++ nm) = false := by
  rw [List.append_assoc, branchS_cons, cornerS_cons]
  exact lead_false_of_head_ne pfx nm _ _ '├' '└' (by decide)

/-- Descendant lines, which continue with a vertical-bar unit, show neither
connector at the parent's level. -/
lemma lead_conn_vbar_false (pfx r : Str) :
    leadsWith (pfx ++ cornerS) ((pfx ++ vbarS) ++ r) = false ∧
    leadsWith (pfx ++ branchS) ((pfx ++ vbarS) ++ r) = false := by
  constructor
  · rw [List.append_assoc, cornerS_cons, vbarS_cons]
    exact lead_false_of_head_ne pfx r _ _ '└' '│' (by decide)
  · rw [List.append_assoc, branchS_cons, vbarS_cons]
    exact lead_false_of_head_ne pfx r _ _ '├' '│' (by decide)

/-- Descendant lines, which continue with a blank unit, show neither
connector at the parent's level. -/
lemma lead_conn_sp_false (pfx r : Str) :
    leadsWith (pfx ++ cornerS) ((pfx ++ spS) ++ r) = false ∧
    leadsWith (pfx ++ branchS) ((pfx ++ spS) ++ r) = false := by
  constructor
  · rw [List.append_assoc, cornerS_cons, spS_cons]
    exact lead_false_of_head_ne pfx r _ _ '└' ' ' (by decide)
  · rw [List.append_assoc, branchS_cons, spS_cons]
    exact lead_false_of_head_ne pfx r _ _ '├' ' ' (by decide)

/-- Right-associated variant of `leadsWith_app`. -/
lemma leadsWith_app2 (p u t : Str) : leadsWith (p ++ u) (p ++ (u ++ t)) = true := by
  rw [← List.append_assoc]
  exact leadsWith_app _ _

/-- Right-associated variant of `lead_corner_branch_false`. -/
lemma lead_corner_branch_false2 (pfx nm : Str) :
    leadsWith (pfx ++ cornerS) (pfx ++ (branchS ++ nm)) = false := by
  rw [← List.append_assoc]
  exact lead_corner_branch_false pfx nm

/-- Right-associated variant of `lead_branch_corner_false`. -/
lemma lead_branch_corner_false2 (pfx nm : Str) :
    leadsWith (pfx ++ branchS) (pfx ++ (cornerS ++ nm)) = false := by
  rw [← List.append_assoc]
  exact lead_branch_corner_false pfx nm

/-- Right-associated variant of `lead_conn_vbar_false`. -/
lemma lead_conn_vbar_false2 (pfx r : Str) :
    leadsWith (pfx ++ cornerS) (pfx ++ (vbarS ++ r)) = false ∧
    leadsWith (pfx ++ branchS) (pfx ++ (vbarS ++ r)) = false := by
  rw [← List.append_assoc]
  exact lead_conn_vbar_false pfx r

/-- Right-associated variant of `lead_conn_sp_false`. -/
lemma lead_conn_sp_false2 (pfx r : Str) :
    leadsWith (pfx ++ cornerS) (pfx ++ (spS ++ r)) = false ∧
    leadsWith (pfx ++ branchS) (pfx ++ (spS ++ r)) = false := by
  rw [← List.append_assoc]
  exact lead_conn_sp_false pfx r

/-- Connector bookkeeping of the shared loop: on a non-empty listing the
corner connector heads exactly one line at the level's own indentation, the
branch connector heads exactly `length - 1` lines there, and every other
emitted line continues with a vertical-bar or blank unit instead. -/
lemma connAux : ∀ (cs : List Entry) (pfx : Str) (out : List Str),
    renderList cs pfx = .ok out → cs ≠ [] →
    out.countP (fun l => leadsWith (pfx ++ cornerS) l) = 1 ∧
    out.countP (fun l => leadsWith (pfx ++ branchS) l) = cs.length - 1 ∧
    ∀ l ∈ out, leadsWith (pfx ++ cornerS) l = true ∨ leadsWith (pfx ++ branchS) l = true ∨
      leadsWith (pfx ++ vbarS) l = true ∨ leadsWith (pfx ++ spS) l = true
  | [], pfx, out => fun _ hne => absurd rfl hne
  | [c], pfx, out => by
    intro h _
    rw [renderList] at h
    rcases hd : c.isDirE with _ | _
    · rw [hd] at h
      simp only [Bool.false_eq_true, if_false] at h
      cases h
      refine ⟨?_, ?_, ?_⟩
      · simp [List.countP_cons, leadsWith_app, leadsWith_app2]
      · simp [List.countP_cons, lead_branch_corner_false pfx c.name,
          lead_branch_corner_false2 pfx c.name]
      · intro l hl
        rcases List.mem_cons.mp hl with rfl | hl
        · exact Or.inl (leadsWith_app _ _)
        · cases hl
    · rw [hd] at h
      simp only [if_true] at h
      cases hr : render c (pfx ++ spS) with
      | error e => rw [hr] at h; cases h
      | ok sub =>
        rw [hr] at h
        cases h
        have hsub : ∀ l ∈ sub, ∃ r, l = (pfx ++ spS) ++ r :=
          render_pfx c (pfx ++ spS) sub hr
        have hsc : sub.countP (fun l => leadsWith (pfx ++ cornerS) l) = 0 := by
          rw [List.countP_eq_zero]
          intro l hl
          rcases hsub l hl with ⟨r, rfl⟩
          simp [(lead_conn_sp_false pfx r).1, (lead_conn_sp_false2 pfx r).1]
        have hsb : sub.countP (fun l => leadsWith (pfx ++ branchS) l) = 0 := by
          rw [List.countP_eq_zero]
          intro l hl
          rcases hsub l hl with ⟨r, rfl⟩
          simp [(lead_conn_sp_false pfx r).2, (lead_conn_sp_false2 pfx r).2]
        refine ⟨?_, ?_, ?_⟩
        · simp [List.countP_cons, leadsWith_app, leadsWith_app2, hsc]
        · simp [List.countP_cons, lead_branch_corner_false pfx c.name,
            lead_branch_corner_false2 pfx c.name, hsb]
        · intro l hl
          rcases List.mem_cons.mp hl with rfl | hl
          · exact Or.inl (leadsWith_app _ _)
          · rcases hsub l hl with ⟨r, rfl⟩
            exact Or.inr (Or.inr (Or.inr (leadsWith_app _ _)))
  | c :: c2 :: rest, pfx, out => by
    intro h _
    rw [renderList] at h
    have step : ∀ (sub tl : List Str),
        (∀ l ∈ sub, ∃ r, l = (pfx ++ vbarS) ++ r) →
        renderList (c2 :: rest) pfx = .ok tl →
        (((pfx ++ branchS) ++ c.name) :: (sub ++ tl)).countP
            (fun l => leadsWith (pfx ++ cornerS) l) = 1 ∧
        (((pfx ++ branchS) ++ c.name) :: (sub ++ tl)).countP
            (fun l => leadsWith (pfx ++ branchS) l) = (c :: c2 :: rest).length - 1 ∧
        ∀ l ∈ ((pfx ++ branchS) ++ c.name) :: (sub ++ tl),
          leadsWith (pfx ++ cornerS) l = true ∨ leadsWith (pfx ++ branchS) l = true ∨
          leadsWith (pfx ++ vbarS) l = true ∨ leadsWith (pfx ++ spS) l = true := by
      intro sub tl hsub hr2
      have ih := connAux (c2 :: rest) pfx tl hr2 (by simp)
      have hsc : sub.countP (fun l => leadsWith (pfx ++ cornerS) l) = 0 := by
        rw [List.countP_eq_zero]
        intro l hl
        rcases hsub l hl with ⟨r, rfl⟩
        simp [(lead_conn_vbar_false pfx r).1, (lead_conn_vbar_false2 pfx r).1]
      have hsb : sub.countP (fun l => leadsWith (pfx ++ branchS) l) = 0 := by
        rw [List.countP_eq_zero]
        intro l hl
        rcases hsub l hl with ⟨r, rfl⟩
        simp [(lead_conn_vbar_false pfx r).2, (lead_conn_vbar_false2 pfx r).2]
      refine ⟨?_, ?_, ?_⟩
      · simp [List.countP_cons, List.countP_append, hsc, ih.1,
          lead_corner_branch_false pfx c.name, lead_corner_branch_false2 pfx c.name]
      · have hb := ih.2.1
        simp only [List.countP_cons, List.countP_append, hsb, hb, leadsWith_app,
          List.length_cons, if_true]
        omega
      · intro l hl
        rcases List.mem_cons.mp hl with rfl | hl
        · exact Or.inr (Or.inl (leadsWith_app _ _))
        · rcases List.mem_append.mp hl with hl | hl
          · rcases hsub l hl with ⟨r, rfl⟩
            exact Or.inr (Or.inr (Or.inl (leadsWith_app _ _)))
          · exact ih.2.2 l hl
    rcases hd : c.isDirE with _ | _
    · rw [hd] at h
      simp only [Bool.false_eq_true, if_false] at h
      cases hr2 : renderList (c2 :: rest) pfx with
      | error e => rw [hr2] at h; cases h
      | ok tl =>
        rw [hr2] at h
        cases h
        have := step [] tl (by intro l hl; cases hl) hr2
        simpa using this
    · rw [hd] at h
      simp only [if_true] at h
      cases hr : render c (pfx ++ vbarS) with
      | error e => rw [hr] at h; cases h
      | ok sub =>
        rw [hr] at h
        cases hr2 : renderList (c2 :: rest) pfx with
        | error e => rw [hr2] at h; cases h
        | ok tl =>
          rw [hr2] at h
          cases h
          exact step sub tl (render_pfx c (pfx ++ vbarS) sub hr) hr2

/-- C2: in every successful directory listing rendered by the shared loop of
`tree.py` and `tee.py` (on a non-empty listing), exactly one emitted line
shows the corner connector `└── ` at the level's own indentation — the last
sibling — exactly `length - 1` lines show the branch connector `├── ` there,
and every other emitted line belongs to a subtree and continues with a
vertical-bar unit `│   ` (below a non-last sibling) or a blank unit (below
the last sibling) instead. -/
theorem connector_per_level (cs : List Entry) (pfx : Str) (out : List Str)
    (h : renderList cs pfx = .ok out) (hne : cs ≠ []) :
    out.countP (fun l => leadsWith (pfx ++ cornerS) l) = 1 ∧
    out.countP (fun l => leadsWith (pfx ++ branchS) l) = cs.length - 1 ∧
    ∀ l ∈ out, leadsWith (pfx ++ cornerS) l = true ∨ leadsWith (pfx ++ branchS) l = true ∨
      leadsWith (pfx ++ vbarS) l = true ∨ leadsWith (pfx ++ spS) l = true :=
  connAux cs pfx out h hne

/-- Concrete instance of `connector_per_level` on a two-entry listing with a
subdirectory. -/
theorem connector_per_level_witness :
    renderList [.dir "b".toList false [.file "c".toList], .file "a".toList] [] =
      .ok ["├── b".toList, "│   └── c".toList, "└── a".toList] ∧
    ([Entry.dir "b".toList false [.file "c".toList], Entry.file "a".toList] : List Entry) ≠ [] ∧
    ((["├── b".toList, "│   └── c".toList, "└── a".toList] : List Str).countP
        (fun l => leadsWith (([] : Str) ++ cornerS) l) = 1 ∧
     (["├── b".toList, "│   └── c".toList, "└── a".toList] : List Str).countP
        (fun l => leadsWith (([] : Str) ++ branchS) l) =
      ([Entry.dir "b".toList false [.file "c".toList], Entry.file "a".toList] : List Entry).length - 1 ∧
     ∀ l ∈ (["├── b".toList, "│   └── c".toList, "└── a".toList] : List Str),
       leadsWith (([] : Str) ++ cornerS) l = true ∨ leadsWith (([] : Str) ++ branchS) l = true ∨
       leadsWith (([] : Str) ++ vbarS) l = true ∨ leadsWith (([] : Str) ++ spS) l = true) :=
  ⟨rfl, by simp,
   connector_per_level [.dir "b".toList false [.file "c".toList], .file "a".toList] []
     ["├── b".toList, "│   └── c".toList, "└── a".toList] rfl (by simp)⟩

/-- Appending one continuation unit on the right keeps a units string a
units string. -/
lemma IndentUnits.snoc : ∀ {k : Nat} {p : Str}, IndentUnits k p →
    ∀ u : Str, (u = vbarS ∨ u = spS) → IndentUnits (k + 1) (p ++ u) := by
  intro k p h
  induction h with
  | nil =>
    intro u hu
    rcases hu with rfl | rfl
    · simpa using IndentUnits.vbar 0 [] IndentUnits.nil
    · simpa using IndentUnits.blank 0 [] IndentUnits.nil
  | vbar k p hp ih =>
    intro u hu
    rw [List.append_assoc]
    exact IndentUnits.vbar _ _ (ih u hu)
  | blank k p hp ih =>
    intro u hu
    rw [List.append_assoc]
    exact IndentUnits.blank _ _ (ih u hu)

/-- The parser stops immediately on a connector character. -/
lemma parseDepth_conn (c : Char) (rest : Str) (h : c = '└' ∨ c = '├') :
    parseDepth (c :: rest) = 0 := by
  rw [parseDepth, if_pos h]

/-- The parser consumes one leading continuation unit. -/
lemma parseDepth_unit (u : Str) (hu : u = vbarS ∨ u = spS) (t : Str) :
    parseDepth (u ++ t) = 1 + parseDepth t := by
  rcases hu with rfl | rfl
  · rw [vbarS_cons, List.cons_append, parseDepth,
      if_neg (by decide : ¬ ('│' = '└' ∨ '│' = '├'))]
    have h3 : (("   ".toList : Str) ++ t).drop 3 = t := rfl
    rw [h3]
  · rw [spS_cons, List.cons_append, parseDepth,
      if_neg (by decide : ¬ (' ' = '└' ∨ ' ' = '├'))]
    have h3 : (("   ".toList : Str) ++ t).drop 3 = t := rfl
    rw [h3]

/-- On a line made of `k` continuation units followed by a connector, the
parser returns exactly `k`. -/
lemma parseDepth_units {k : Nat} {p : Str} (h : IndentUnits k p) (c : Char)
    (hc : c = '└' ∨ c = '├') (rest : Str) : parseDepth (p ++ (c :: rest)) = k := by
  induction h with
  | nil => simpa using parseDepth_conn c rest hc
  | vbar k p hp ih =>
    rw [List.append_assoc, parseDepth_unit vbarS (Or.inl rfl), ih]
    omega
  | blank k p hp ih =>
    rw [List.append_assoc, parseDepth_unit spS (Or.inr rfl), ih]
    omega

/-- Entries that are not directories contribute no subtree depths. -/
lemma depthsE_nondir (c : Entry) (hd : c.isDirE = false) (d : Nat) :
    depthsE c d = [] := by
  cases c <;> simp_all [Entry.isDirE, depthsE]

mutual
/-- Round-trip core: when the continuation string consists of `k` units, the
parsed depth (plus one) of each emitted line equals the filesystem depth of
the entry it displays, children of the call's directory sitting at depth
`k + 1`. -/
lemma render_depths : ∀ (t : Entry) (pfx : Str) (k : Nat) (out : List Str),
    IndentUnits k pfx → render t pfx = .ok out →
    out.map (fun l => parseDepth l + 1) = depthsE t (k + 1)
  | .dir n true cs, pfx, k, out => by intro _ h; simp [render] at h
  | .dir n false cs, pfx, k, out => by
    intro hu h
    rw [render] at h
    rw [depthsE]
    exact renderList_depths cs pfx k out hu h
  | .file n, pfx, k, out => by intro _ h; simp [render] at h
  | .other n, pfx, k, out => by intro _ h; simp [render] at h

/-- Listing-level `render_depths`. -/
lemma renderList_depths : ∀ (cs : List Entry) (pfx : Str) (k : Nat) (out : List Str),
    IndentUnits k pfx → renderList cs pfx = .ok out →
    out.map (fun l => parseDepth l + 1) = depthsL cs (k + 1)
  | [], pfx, k, out => by
    intro _ h
    simp only [renderList] at h
    cases h
    rfl
  | [c], pfx, k, out => by
    intro hu h
    rw [renderList] at h
    have hhead : parseDepth (pfx ++ (cornerS ++ c.name)) = k := by
      rw [cornerS_cons, List.cons_append]
      exact parseDepth_units hu '└' (Or.inl rfl) _
    rcases hd : c.isDirE with _ | _
    · rw [hd] at h
      simp only [Bool.false_eq_true, if_false] at h
      cases h
      rw [depthsL, depthsE_nondir c hd, depthsL]
      simp [hhead]
    · rw [hd] at h
      simp only [if_true] at h
      cases hr : render c (pfx ++ spS) with
      | error e => rw [hr] at h; cases h
      | ok sub =>
        rw [hr] at h
        cases h
        have hs := render_depths c (pfx ++ spS) (k + 1) sub
          (hu.snoc spS (Or.inr rfl)) hr
        rw [depthsL, depthsL]
        simp [hhead, hs]
  | c :: c2 :: rest, pfx, k, out => by
    intro hu h
    rw [renderList] at h
    have hhead : parseDepth (pfx ++ (branchS ++ c.name)) = k := by
      rw [branchS_cons, List.cons_append]
      exact parseDepth_units hu '├' (Or.inr rfl) _
    rcases hd : c.isDirE with _ | _
    · rw [hd] at h
      simp only [Bool.false_eq_true, if_false] at h
      cases hr2 : renderList (c2 :: rest) pfx with
      | error e => rw [hr2] at h; cases h
      | ok tl =>
        rw [hr2] at h
        cases h
        have ht := renderList_depths (c2 :: rest) pfx k tl hu hr2
        rw [depthsL, depthsE_nondir c hd]
        simp [hhead, ht]
    · rw [hd] at h
      simp only [if_true] at h
      cases hr : render c (pfx ++ vbarS) with
      | error e => rw [hr] at h; cases h
      | ok sub =>
        rw [hr] at h
        cases hr2 : renderList (c2 :: rest) pfx with
        | error e => rw [hr2] at h; cases h
        | ok tl =>
          rw [hr2] at h
          cases h
          have hs := render_depths c (pfx ++ vbarS) (k + 1) sub
            (hu.snoc vbarS (Or.inl rfl)) hr
          have ht := renderList_depths (c2 :: rest) pfx k tl hu hr2
          rw [depthsL]
          simp [hhead, hs, ht]
end

/-- C3: round-trip of the tree printers' output — for every entry printed by
the shared renderer of `tree.py` and `tee.py`, parsing its line by counting
leading 4-character indentation units recovers the entry's nesting depth: a
line for an entry at depth `d` relative to the root carries exactly `d - 1`
units before its connector, so `parseDepth + 1` reproduces `depthsE`, the
true depth sequence.  The traversal root uses the empty continuation
(`IndentUnits 0`). -/
theorem depth_roundtrip (t : Entry) (pfx : Str) (k : Nat) (out : List Str)
    (hu : IndentUnits k pfx) (h : render t pfx = .ok out) :
    out.map (fun l => parseDepth l + 1) = depthsE t (k + 1) :=
  render_depths t pfx k out hu h

/-- Concrete instance of `depth_roundtrip` at the empty continuation. -/
theorem depth_roundtrip_witness :
    render (.dir "r".toList false
        [.file "a".toList, .dir "b".toList false [.file "c".toList]]) [] =
      .ok ["├── a".toList, "└── b".toList, "    └── c".toList] ∧
    (["├── a".toList, "└── b".toList, "    └── c".toList] : List Str).map
        (fun l => parseDepth l + 1) =
      depthsE (.dir "r".toList false
        [.file "a".toList, .dir "b".toList false [.file "c".toList]]) (0 + 1) :=
  ⟨rfl, depth_roundtrip _ [] 0 _ IndentUnits.nil rfl⟩

mutual
/-- Rendering a directory fails exactly when a denied directory is reachable
in the (already filtered) tree: the directory itself, or one reachable
through its listing. -/
lemma render_err : ∀ (n : Str) (dn : Bool) (cs : List Entry) (pfx : Str),
    (render (.dir n dn cs) pfx = .error ()) ↔ nDen (.dir n dn cs) = true
  | n, true, cs, pfx => by simp [render, nDen]
  | n, false, cs, pfx => by
    rw [render, nDen]
    exact renderList_err cs pfx

/-- Listing-level `render_err`. -/
lemma renderList_err : ∀ (cs : List Entry) (pfx : Str),
    (renderList cs pfx = .error ()) ↔ nDenL cs = true
  | [], pfx => by simp [renderList, nDenL]
  | [c], pfx => by
    rw [renderList, nDenL, nDenL]
    rcases c with nm | nm | ⟨nm, dm, ds⟩
    · simp [Entry.isDirE]
    · simp [Entry.isDirE]
    · simp only [Entry.isDirE, if_true, Bool.true_and, Bool.or_false]
      cases hr : render (.dir nm dm ds) (pfx ++ spS) with
      | error e =>
        cases e
        simp only [hr]
        have := (render_err nm dm ds (pfx ++ spS)).mp hr
        simp [this]
      | ok sub =>
        simp only [hr]
        have : ¬ nDen (.dir nm dm ds) = true := by
          intro hden
          have herr := (render_err nm dm ds (pfx ++ spS)).mpr hden
          rw [herr] at hr
          cases hr
        simp [this]
  | c :: c2 :: rest, pfx => by
    rw [renderList, nDenL]
    have htl := renderList_err (c2 :: rest) pfx
    rcases c with nm | nm | ⟨nm, dm, ds⟩
    · simp only [Entry.isDirE, Bool.false_eq_true, if_false, Bool.false_and,
        Bool.false_or]
      cases hr2 : renderList (c2 :: rest) pfx with
      | error e =>
        cases e
        simp [htl.mp hr2]
      | ok tl =>
        have : ¬ nDenL (c2 :: rest) = true := by
          intro hden
          have herr := htl.mpr hden
          rw [herr] at hr2
          cases hr2
        simp [this]
    · simp only [Entry.isDirE, Bool.false_eq_true, if_false, Bool.false_and,
        Bool.false_or]
      cases hr2 : renderList (c2 :: rest) pfx with
      | error e =>
        cases e
        simp [htl.mp hr2]
      | ok tl =>
        have : ¬ nDenL (c2 :: rest) = true := by
          intro hden
          have herr := htl.mpr hden
          rw [herr] at hr2
          cases hr2
        simp [this]
    · simp only [Entry.isDirE, if_true, Bool.true_and]
      cases hr : render (.dir nm dm ds) (pfx ++ vbarS) with
      | error e =>
        cases e
        simp only [hr]
        have := (render_err nm dm ds (pfx ++ vbarS)).mp hr
        simp [this]
      | ok sub =>
        simp only [hr]
        have hnd : ¬ nDen (.dir nm dm ds) = true := by
          intro hden
          have herr := (render_err nm dm ds (pfx ++ vbarS)).mpr hden
          rw [herr] at hr
          cases hr
        cases hr2 : renderList (c2 :: rest) pfx with
        | error e =>
          cases e
          simp [htl.mp hr2, hnd]
        | ok tl =>
          have hnt : ¬ nDenL (c2 :: rest) = true := by
            intro hden
            have herr := htl.mpr hden
            rw [herr] at hr2
            cases hr2
          simp [hnd, hnt]
end

/-- The denial test of a listing only depends on which entries it holds. -/
lemma nDenL_iff : ∀ l : List Entry,
    nDenL l = true ↔ ∃ c ∈ l, (c.isDirE && nDen c) = true
  | [] => by simp [nDenL]
  | c :: rest => by
    rw [nDenL, Bool.or_eq_true, nDenL_iff rest]
    constructor
    · rintro (h | ⟨x, hx, h2⟩)
      · exact ⟨c, List.mem_cons_self c rest, h⟩
      · exact ⟨x, List.mem_cons_of_mem c hx, h2⟩
    · rintro ⟨x, hx, h2⟩
      rcases List.mem_cons.mp hx with rfl | hx
      · exact Or.inl h2
      · exact Or.inr ⟨x, hx, h2⟩

/-- Permuting a listing does not change its denial test. -/
lemma nDenL_perm {l₁ l₂ : List Entry} (h : l₁.Perm l₂) : nDenL l₁ = nDenL l₂ := by
  rcases hb : nDenL l₂ with _ | _
  · rcases ha : nDenL l₁ with _ | _
    · rfl
    · exfalso
      rcases (nDenL_iff l₁).mp ha with ⟨c, hc, hcp⟩
      have : nDenL l₂ = true := (nDenL_iff l₂).mpr ⟨c, h.mem_iff.mp hc, hcp⟩
      rw [this] at hb
      cases hb
  · rcases (nDenL_iff l₂).mp hb with ⟨c, hc, hcp⟩
    exact (nDenL_iff l₁).mpr ⟨c, h.mem_iff.mpr hc, hcp⟩

mutual
/-- Denial reachability in `tree.py`'s normalised tree matches reachability
through non-excluded directories of the source tree. -/
lemma nDen_trNorm : ∀ t : Entry, nDen (trNorm t) = dReach trKeep t
  | .file n => rfl
  | .other n => rfl
  | .dir n true cs => by rw [trNorm]; rfl
  | .dir n false cs => by
    rw [trNorm, nDen, dReach, trSort,
      nDenL_perm (sortLe_perm (fun a b => strLe a.name b.name)
        ((trNormL cs).filter trKeep))]
    exact nDenL_trF cs

/-- Listing-level `nDen_trNorm`. -/
lemma nDenL_trF : ∀ cs : List Entry,
    nDenL ((trNormL cs).filter trKeep) = dReachL trKeep cs
  | [] => rfl
  | c :: rest => by
    rw [trNormL, List.filter_cons, dReachL]
    rcases hk : trKeep c with _ | _
    · simp only [trKeep_trNorm, hk, Bool.false_eq_true, if_false,
        Bool.false_and, Bool.false_or]
      exact nDenL_trF rest
    · simp only [trKeep_trNorm, hk, if_true, Bool.true_and]
      rw [nDenL, trNorm_isDir, nDen_trNorm c, nDenL_trF rest]
end

mutual
/-- Denial reachability in `tee.py`'s normalised tree matches reachability
through non-excluded directories of the source tree. -/
lemma nDen_teeNorm : ∀ t : Entry, nDen (teeNorm t) = dReach teeKeep t
  | .file n => rfl
  | .other n => rfl
  | .dir n true cs => by rw [teeNorm]; rfl
  | .dir n false cs => by
    rw [teeNorm, nDen, dReach, teeSort,
      nDenL_perm (sortLe_perm _ ((teeNormL cs).filter teeKeep))]
    exact nDenL_teeF cs

/-- Listing-level `nDen_teeNorm`. -/
lemma nDenL_teeF : ∀ cs : List Entry,
    nDenL ((teeNormL cs).filter teeKeep) = dReachL teeKeep cs
  | [] => rfl
  | c :: rest => by
    rw [teeNormL, List.filter_cons, dReachL]
    rcases hk : teeKeep c with _ | _
    · simp only [teeKeep_teeNorm, hk, Bool.false_eq_true, if_false,
        Bool.false_and, Bool.false_or]
      exact nDenL_teeF rest
    · simp only [teeKeep_teeNorm, hk, if_true, Bool.true_and]
      rw [nDenL, teeNorm_isDir, nDen_teeNorm c, nDenL_teeF rest]
end

/-- C6: behaviour of each traversal variant on a permission-denied
directory.  The icon variant (`zprj_tree.py`) silently swallows the error,
returning an empty result for the denied subtree (and an empty output when
the root itself is denied); the console variant (`tree.py`) and the image
variant (`tee.py`) leave it unhandled, so the run crashes — and does so
exactly when a denied directory is reachable through directories their
exclusion filters keep. -/
theorem permission_error_behavior :
    (∀ (n : Str) (cs : List Entry) (pfx : Str), zRender (.dir n true cs) pfx = []) ∧
    (∀ (n : Str) (cs : List Entry), print_tree (.dir n true cs) = []) ∧
    (∀ (n : Str) (dn : Bool) (cs : List Entry),
      (tree (.dir n dn cs) = .error ()) ↔ dReach trKeep (.dir n dn cs) = true) ∧
    (∀ (n : Str) (dn : Bool) (cs : List Entry),
      (build_tree (.dir n dn cs) = .error ()) ↔ dReach teeKeep (.dir n dn cs) = true) := by
  refine ⟨fun n cs pfx => by rw [zRender], fun n cs => by rw [print_tree, zNorm, zRender],
    fun n dn cs => ?_, fun n dn cs => ?_⟩
  · simp only [tree]
    rw [trNorm, render_err, ← trNorm, nDen_trNorm]
  · simp only [build_tree]
    rw [teeNorm, render_err, ← teeNorm, nDen_teeNorm]

/-- Lexicographic code-point comparison is transitive. -/
lemma strLe_trans : ∀ a b c : Str, strLe a b = true → strLe b c = true → strLe a c = true
  | [], _, _, _, _ => rfl
  | a0 :: as, [], _, h, _ => by rw [strLe] at h; cases h
  | a0 :: as, b0 :: bs, [], _, h2 => by rw [strLe] at h2; cases h2
  | a0 :: as, b0 :: bs, c0 :: cs, h1, h2 => by
    rw [strLe] at h1 h2 ⊢
    by_cases hab : a0.toNat < b0.toNat
    · by_cases hbc : b0.toNat < c0.toNat
      · rw [if_pos (by omega : a0.toNat < c0.toNat)]
      · by_cases hbc2 : b0.toNat = c0.toNat
        · rw [if_pos (by omega : a0.toNat < c0.toNat)]
        · rw [if_neg hbc, if_neg hbc2] at h2
          cases h2
    · by_cases heq : a0.toNat = b0.toNat
      · rw [if_neg hab, if_pos heq] at h1
        by_cases hbc : b0.toNat < c0.toNat
        · rw [if_pos (by omega : a0.toNat < c0.toNat)]
        · by_cases hbc2 : b0.toNat = c0.toNat
          · rw [if_neg hbc, if_pos hbc2] at h2
            rw [if_neg (by omega : ¬ a0.toNat < c0.toNat),
              if_pos (by omega : a0.toNat = c0.toNat)]
            exact strLe_trans as bs cs h1 h2
          · rw [if_neg hbc, if_neg hbc2] at h2
            cases h2
      · rw [if_neg hab, if_neg heq] at h1
        cases h1

/-- Lexicographic code-point comparison is total. -/
lemma strLe_total : ∀ a b : Str, (strLe a b || strLe b a) = true
  | [], b => by rw [strLe]; rfl
  | a0 :: as, [] => by rw [strLe, strLe]; rfl
  | a0 :: as, b0 :: bs => by
    rw [strLe, strLe]
    by_cases h : a0.toNat < b0.toNat
    · rw [if_pos h]
      rfl
    · by_cases he : a0.toNat = b0.toNat
      · rw [if_neg h, if_pos he, if_neg (by omega : ¬ b0.toNat < a0.toNat),
          if_pos (by omega : b0.toNat = a0.toNat)]
        exact strLe_total as bs
      · rw [if_neg h, if_neg he, if_pos (by omega : b0.toNat < a0.toNat)]
        rfl

/-- C4: ordering of the three listing variants.  The console variant
(`tree.py`) always lists every level in lexicographic (code-point) order of
names.  The icon variant (`zprj_tree.py`) always lists the directories
first, then the regular files, each group in lexicographic order, making it
the one variant with that property: the image variant (`tee.py`) also puts
directories first but orders each group case-insensitively, which is not
lexicographic order (`a` before `B`, shown concretely), and the console
variant does not put directories first (a file named `a` precedes a
directory named `b`, shown concretely). -/
theorem sort_variants :
    (∀ (n : Str) (dn : Bool) (cs : List Entry),
      ((trNorm (.dir n dn cs)).childrenE).Pairwise
        (fun a b => strLe a.name b.name = true)) ∧
    (∀ (n : Str) (dn : Bool) (cs : List Entry), ∃ ds fl : List Entry,
      (zNorm (.dir n dn cs)).childrenE = ds ++ fl ∧
      (∀ e ∈ ds, e.isDirE = true) ∧ (∀ e ∈ fl, e.isFileE = true) ∧
      ds.Pairwise (fun a b => strLe a.name b.name = true) ∧
      fl.Pairwise (fun a b => strLe a.name b.name = true)) ∧
    ¬ ((teeNorm (.dir "r".toList false
        [.file "B".toList, .file "a".toList])).childrenE).Pairwise
        (fun a b => strLe a.name b.name = true) ∧
    (trNorm (.dir "r".toList false
        [.file "a".toList, .dir "b".toList false []])).childrenE =
      [.file "a".toList, .dir "b".toList false []] := by
  have htrans : ∀ a b c : Entry, strLe a.name b.name = true →
      strLe b.name c.name = true → strLe a.name c.name = true :=
    fun a b c => strLe_trans a.name b.name c.name
  have htot : ∀ a b : Entry, (strLe a.name b.name || strLe b.name a.name) = true :=
    fun a b => strLe_total a.name b.name
  refine ⟨?_, ?_, ?_, rfl⟩
  · intro n dn cs
    rw [trNorm, Entry.childrenE, trSort]
    exact sortLe_sorted htrans htot _
  · intro n dn cs
    refine ⟨(zSort (zNormL cs)).filter zKeepDir,
      (zSort (zNormL cs)).filter Entry.isFileE, ?_, ?_, ?_, ?_, ?_⟩
    · rw [zNorm, Entry.childrenE]
    · intro e he
      have h2 := (List.mem_filter.mp he).2
      rw [zKeepDir, Bool.and_eq_true] at h2
      exact h2.1
    · intro e he
      exact (List.mem_filter.mp he).2
    · exact List.Pairwise.sublist (List.filter_sublist _)
        (by rw [zSort]; exact sortLe_sorted htrans htot _)
    · exact List.Pairwise.sublist (List.filter_sublist _)
        (by rw [zSort]; exact sortLe_sorted htrans htot _)
  · have hc : (teeNorm (.dir "r".toList false
        [.file "B".toList, .file "a".toList])).childrenE =
      [.file "a".toList, .file "B".toList] := rfl
    rw [hc]
    intro h
    have h1 := (List.pairwise_cons.mp h).1 (.file "B".toList)
      (List.mem_cons_self _ _)
    revert h1
    decide
